import Mathlib

/-!
Verification of the query-building core of the `paginate` library.

Go strings are modelled as `List Char`; Go slices as Lean lists; Go `int`
as `Int` with two's-complement 64-bit wrap-around applied exactly where the
source multiplies or adds machine integers.  Each definition below is a
direct translation of the Go function of the same name from the repository
(`helpers.go`, `types.go`, `paginate.go` and the snapshot holding
`Paginate`, `GetRowPtrArgs`, `addRow` and `Scan`).
-/

set_option maxRecDepth 20000
set_option maxHeartbeats 2000000
set_option linter.dupNamespace false

namespace Paginate

/-- Convert a Lean string literal to the `List Char` model of a Go string. -/
def chars (s : String) : List Char := s.toList

/-- Go `strings.Split(s, sep)` for a one-character separator: split at every
occurrence, keeping empty segments; the empty string yields one empty segment. -/
def splitOnChar (sep : Char) : List Char → List (List Char)
  | [] => [[]]
  | c :: rest =>
    match splitOnChar sep rest with
    | [] => [[c]]
    | h :: t => if c = sep then [] :: h :: t else (c :: h) :: t

/-- Go `strings.Join(l, sep)`. -/
def goJoin (sep : List Char) (l : List (List Char)) : List Char :=
  match l with
  | [] => []
  | a :: rest => rest.foldl (fun acc x => acc ++ sep ++ x) a

/-- Go `strings.Contains(s, sub)`. -/
def goContains : List Char → List Char → Bool
  | [], sub => sub.isEmpty
  | c :: t, sub => sub.isPrefixOf (c :: t) || goContains t sub

/-- Go helper `isStringIn` from `helpers.go`: membership test in a string slice. -/
def isStringIn (s : List Char) : List (List Char) → Bool
  | [] => false
  | elem :: rest => if s = elem then true else isStringIn s rest

/-- Number of occurrences of the format directive `%v` in a string, scanning
left to right (how `fmt.Sprintf` consumes its arguments). -/
def countVs : List Char → Nat
  | '%' :: 'v' :: rest => countVs rest + 1
  | _ :: rest => countVs rest
  | [] => 0

/-- Go `int64` (two's complement) wrap-around of a mathematical integer. -/
def wrap64 (x : Int) : Int := (x + 2 ^ 63) % 2 ^ 64 - 2 ^ 63

/-- Go `int` multiplication (64-bit, overflow wraps). -/
def goMul (a b : Int) : Int := wrap64 (a * b)

/-- Go `int` addition (64-bit, overflow wraps). -/
def goAdd (a b : Int) : Int := wrap64 (a + b)

/-- Decimal rendering of a Go `int`, as printed by the `%v` verb. -/
def intChars (i : Int) : List Char := (toString i).toList

/-- Go `fmt.Sprintf` specialised to a format string whose only directives are
`%v` and to integer arguments, as used in `Paginate`: each `%v` is replaced by
the decimal rendering of the next argument, left to right; a directive with no
argument left renders as `%!v(MISSING)` (extra arguments are not modelled, no
call site leaves any). -/
def substPercentV : List Char → List Int → List Char
  | [], _ => []
  | '%' :: 'v' :: rest, a :: args => intChars a ++ substPercentV rest args
  | '%' :: 'v' :: rest, [] => chars ("%!v(MISSING)") ++ substPercentV rest []
  | c :: rest, args => c :: substPercentV rest args

/-! Operator constants from `conts.go`. -/

/-- Go constant `eq = "="`. -/
def eq : List Char := chars ("=")

/-- Go constant `gt = ">"`. -/
def gt : List Char := chars (">")

/-- Go constant `lt = "<"`. -/
def lt : List Char := chars ("<")

/-- Go constant `gte = ">="`. -/
def gte : List Char := chars (">=")

/-- Go constant `lte = "<="`. -/
def lte : List Char := chars ("<=")

/-- Go constant `ne = "<>"`. -/
def ne : List Char := chars ("<>")

/-- Go constant `_in = "IN"`. -/
def _in : List Char := chars ("IN")

/-- Go constant `_notin = "NOT IN"`. -/
def _notin : List Char := chars ("NOT IN")

/-- The `parameter` struct from `types.go`. -/
structure Parameter where
  name : List Char
  sign : List Char
  value : List Char
deriving DecidableEq

/-- The closure `getParameter`/`getP` inside `getParameters` (`helpers.go`):
match a token remainder `val` against one operator symbol `char`. -/
def getP (key val char : List Char) : Option Parameter :=
  if goContains val char then
    if val.take char.length = char ∧ char.length < val.length then
      some ⟨key, char, val.drop char.length⟩
    else none
  else none

/-- Body of the per-column token scan in `getParameters` (`helpers.go`): for a
filterable column `n` and one raw `&`-separated token `p`, try the operators in
the source's order `gte, lte, ne, gt, lt, eq` and return the first match. -/
def matchToken (n : List Char) (filters : List (List Char)) (p : List Char) :
    Option Parameter :=
  if p.length ≤ n.length then none
  else
    let key := p.take n.length
    let value := p.drop n.length
    if key ≠ n then none
    else if ¬ isStringIn key filters then none
    else
      match getP key value gte with
      | some newP => some newP
      | none =>
      match getP key value lte with
      | some newP => some newP
      | none =>
      match getP key value ne with
      | some newP => some newP
      | none =>
      match getP key value gt with
      | some newP => some newP
      | none =>
      match getP key value lt with
      | some newP => some newP
      | none => getP key value eq

/-- The two nested loops of `getParameters` before post-processing: for every
column name, scan every token. -/
def rawParams (colNames filters : List (List Char)) (tokens : List (List Char)) :
    List Parameter :=
  colNames.flatMap (fun n => tokens.filterMap (matchToken n filters))

/-- Insertion-ordered string-keyed map, modelling the Go maps `eqDuplicates` /
`notEqDuplicates`.  (Go map iteration order is unspecified; insertion order is
one admissible refinement, and every claim below exercises at most one key.) -/
def DupMap := List (List Char × List (List Char))

/-- The map-update branch in the duplicate-grouping inner loop of
`getParameters`: record `v` under `k`, appending it only when absent. -/
def dupInsert (m : List (List Char × List (List Char))) (k v : List Char) :
    List (List Char × List (List Char)) :=
  match m.lookup k with
  | some vs => if isStringIn v vs then m else m.map (fun kv => if kv.1 = k then (kv.1, kv.2 ++ [v]) else kv)
  | none => m ++ [(k, [v])]

/-- Inner loop of a duplicate-grouping pass of `getParameters`: for the element
`x` at index `i`, scan the whole indexed list for another element with the same
sign and name, updating the duplicates map. -/
def dupScan (i : Nat) (x : Parameter) (indexed : List (Nat × Parameter))
    (m0 : List (List Char × List (List Char))) :
    Bool × List (List Char × List (List Char)) :=
  indexed.foldl
    (fun acc jy =>
      if i = jy.1 then acc
      else if x.sign = jy.2.sign ∧ x.name = jy.2.name then
        (true, dupInsert acc.2 x.name x.value)
      else acc)
    (false, m0)

/-- One duplicate-grouping pass of `getParameters` (`helpers.go`): parameters
carrying `sign` that occur more than once under the same name are removed and
replaced by a single parameter with sign `groupSign` whose value is the
comma-join of the distinct original values in first-seen order. -/
def dedupPass (sign groupSign : List Char) (list : List Parameter) : List Parameter :=
  let indexed := list.enum
  let st :=
    indexed.foldl
      (fun (st : List Parameter × List (List Char × List (List Char))) ix =>
        if ix.2.sign ≠ sign then (st.1 ++ [ix.2], st.2)
        else
          let scan := dupScan ix.1 ix.2 indexed st.2
          if scan.1 then (st.1, scan.2) else (st.1 ++ [ix.2], scan.2))
      ([], [])
  st.1 ++ st.2.map (fun kv => ⟨kv.1, groupSign, goJoin (chars (",")) kv.2⟩)

/-- The special-case scan for the reserved `sort` parameter at the end of
`getParameters`: only the `=` operator is tried and filterability is ignored. -/
def sortToken (p : List Char) : Option Parameter :=
  let sort := chars ("sort")
  if p.length ≤ sort.length then none
  else
    let key := p.take sort.length
    let value := p.drop sort.length
    if key ≠ sort then none
    else getP key value eq

/-- `getParameters` from `helpers.go` (the snapshot with the `filters` argument
and IN / NOT IN collapsing).  The argument is the already-URL-decoded request
URL; the function finds the first `?`, splits the rest on `&`, scans tokens per
filterable column, groups repeated `=` parameters into `IN` and repeated `<>`
parameters into `NOT IN`, and finally appends the reserved `sort` parameter. -/
def getParameters (colNames filters : List (List Char)) (decodedURL : List Char) :
    List Parameter :=
  match decodedURL.findIdx? (fun c => c = '?') with
  | none => []
  | some i =>
    let params := splitOnChar '&' (decodedURL.drop (i + 1))
    let list := rawParams colNames filters params
    let list := dedupPass eq _in list
    let list := dedupPass ne _notin list
    list ++ params.filterMap sortToken

/-- The `whereClause` struct from `types.go` (`exists` is a Lean keyword, so
the field is named `existsFlag`). -/
structure WhereClause where
  clause : List Char
  args : List (List Char)
  existsFlag : Bool
deriving DecidableEq

/-- The placeholder-list loop inside the IN / NOT IN branch of
`createWhereClause`: `m` values yield `"$%v,$%v,...,$%v"`. -/
def phStr (m : Nat) : List Char :=
  (List.range m).foldl
    (fun str i => str ++ (if i = m - 1 then chars ("$%v") else chars ("$%v,")))
    []

/-- The inner loop body of `createWhereClause` (`helpers.go`, the snapshot
with IN / NOT IN handling): a parameter naming the current column appends its
argument values and its clause fragment to the accumulated pair
`(values, clauses)`. -/
def whereStep (name : List Char) (acc : List (List Char) × List (List Char))
    (p : Parameter) : List (List Char) × List (List Char) :=
  if p.name = name then
    if p.sign = _in ∨ p.sign = _notin then
      let vals := splitOnChar ',' p.value
      (acc.1 ++ vals,
       acc.2 ++ [p.name ++ chars (" ") ++ p.sign ++ ('(' :: phStr vals.length ++ [')'])])
    else
      (acc.1 ++ [p.value],
       acc.2 ++ [p.name ++ chars (" ") ++ p.sign ++ chars (" $%v")])
  else acc

/-- The two nested loops of `createWhereClause`: for every column name, for
every parameter, run `whereStep`. -/
def whereFold (colNames : List (List Char)) (params : List Parameter) :
    List (List Char) × List (List Char) :=
  colNames.foldl (fun acc name => params.foldl (whereStep name) acc) ([], [])

/-- `createWhereClause` from `helpers.go`: join the fragments with `" AND "`
(no separator when there is exactly one), prefix `" WHERE "`, and report
whether any fragment exists. -/
def createWhereClause (colNames : List (List Char)) (params : List Parameter) :
    WhereClause :=
  let vc := whereFold colNames params
  let separator := if vc.2.length = 1 then [] else chars (" AND ")
  { clause := chars (" WHERE ") ++ goJoin separator vc.2
    args := vc.1
    existsFlag := decide (0 < vc.2.length) }

/-- The offset computation of `createPaginationClause` (`helpers.go`, the
snapshot without page-size clamping): zero for page numbers below two,
otherwise `pageSize * (pageNumber - 1)` in Go `int` arithmetic. -/
def paginationOffset (pageNumber pageSize : Int) : Int :=
  if pageNumber < 0 ∨ pageNumber = 0 ∨ pageNumber = 1 then 0
  else goMul pageSize (pageNumber - 1)

/-- `createPaginationClause` from `helpers.go`: `" LIMIT %v "` then
`"OFFSET %v"`. -/
def createPaginationClause (pageNumber pageSize : Int) : List Char :=
  chars (" LIMIT ") ++ intChars pageSize ++ chars (" ") ++
    chars ("OFFSET ") ++ intChars (paginationOffset pageNumber pageSize)

/-- `parameters.getParameter` from `types.go`: first parameter with the given
name. -/
def getParameter (params : List Parameter) (name : List Char) : Option Parameter :=
  params.find? (fun p => p.name = name)

/-- The inner per-column loop body of `createOrderByClause` (`helpers.go`):
columns equal to the id are skipped; a field matching a known column appends
`column ASC` for `+` and `column DESC` for `-`. -/
def orderStep (field : List Char) (id : List Char) (orderBy : Char)
    (cl : List (List Char)) (f : List Char) : List (List Char) :=
  if f = id then cl
  else if field = f then
    let cl := if orderBy = '+' then cl ++ [field ++ chars (" ASC")] else cl
    let cl := if orderBy = '-' then cl ++ [field ++ chars (" DESC")] else cl
    cl
  else cl

/-- The loop over the `sort` value's comma-separated fields in
`createOrderByClause` (`helpers.go`): each field is `(+|-)column`.  Go
evaluates `v[0]` on each field, which panics on an empty field; the panic is
modelled as `none`. -/
def sortFieldsLoop (colNames : List (List Char)) (id : List Char) :
    List (List Char) → List (List Char) → Option (List (List Char))
  | clauses, [] => some clauses
  | clauses, v :: rest =>
    match v with
    | [] => none
    | orderBy :: field =>
      sortFieldsLoop colNames id (colNames.foldl (orderStep field id orderBy) clauses) rest

/-- The list of ORDER BY terms built by `createOrderByClause` (`helpers.go`):
without a `sort` parameter the clause is just the id; otherwise the parsed
terms followed by the id.  (The source's early-return string
`" ORDER BY <id>"` equals the join of the single term `[id]`.) -/
def orderByTerms (params : List Parameter) (colNames : List (List Char))
    (id : List Char) : Option (List (List Char)) :=
  match getParameter params (chars ("sort")) with
  | none => some [id]
  | some sort =>
    match sortFieldsLoop colNames id [] (splitOnChar ',' sort.value) with
    | none => none
    | some clauses => some (clauses ++ [id])

/-- `createOrderByClause` from `helpers.go`: the terms joined with `","` after
`" ORDER BY "`; `none` models the Go panic on an empty sort field. -/
def createOrderByClause (params : List Parameter) (colNames : List (List Char))
    (id : List Char) : Option (List Char) :=
  (orderByTerms params colNames id).map
    (fun ts => chars (" ORDER BY ") ++ goJoin (chars (",")) ts)

/-- `orderBy.UniqueValues` from `types.go`: drop entries equal to `skipId` and
keep only the first occurrence of every remaining entry. -/
def UniqueValues (o : List (List Char)) (skipId : List Char) : List (List Char) :=
  o.foldl
    (fun unique s =>
      if s = skipId then unique
      else if isStringIn s unique then unique else unique ++ [s])
    []

/-- `parseCamelCaseToSnakeLowerCase` from `helpers.go`, inner loop: walk the
index from the initial last position down to zero; at an uppercase character,
cut the suffix starting there into `s` and keep shrinking the working string. -/
def pccLoop : Nat → List Char → List (List Char) → List Char × List (List Char)
  | i, camelCase, s =>
    if ((camelCase.drop i).headD 'a').isUpper then
      match i with
      | 0 => (camelCase.take i, s ++ [camelCase.drop i])
      | i' + 1 => pccLoop i' (camelCase.take i) (s ++ [camelCase.drop i])
    else
      match i with
      | 0 => (camelCase, s)
      | i' + 1 => pccLoop i' camelCase s

/-- `parseCamelCaseToSnakeLowerCase` from `helpers.go`: reverse the collected
suffixes, join with `"_"`, lowercase.  (`Char.isUpper`/`Char.toLower` are the
ASCII restrictions of Go's Unicode classifiers; Go identifiers here are
ASCII.) -/
def parseCamelCaseToSnakeLowerCase (camelCase : List Char) : List Char :=
  match camelCase.length with
  | 0 => []
  | n + 1 =>
    let s := (pccLoop n camelCase []).2
    (goJoin (chars ("_")) s.reverse).map Char.toLower

/-- The tag-splitting helper `getColNameFromTags` inside `getCols`
(`paginate.go`): the first tag of the form `col=<name>` wins; whitespace
around key and value is trimmed (tags here are space-free, trimming is the
identity on them and omitted). -/
def getColNameFromTags (tags : List (List Char)) : Option (List Char) :=
  tags.findSome? (fun tag =>
    let kv := splitOnChar '=' tag
    match kv with
    | [k, v] => if k = chars ("col") then some v else none
    | _ => none)

/-- The per-field column-name derivation of `getCols` (`paginate.go`): the
`col` tag override when present, else the snake-cased field identifier. -/
def getColName (tags : List (List Char)) (fieldName : List Char) : List Char :=
  match getColNameFromTags tags with
  | some name => name
  | none => parseCamelCaseToSnakeLowerCase fieldName

/-- The `PaginationResponse` struct from `types.go`. -/
structure PaginationResponse where
  PageNumber : Int
  NextPageNumber : Int
  HasNextPage : Bool
  HasPreviousPage : Bool
  PageCount : Int
  TotalSize : Int
deriving DecidableEq

/-- The zero value of `PaginationResponse`, the state of `p.response` on a
paginator that has not produced a response yet. -/
def zeroResponse : PaginationResponse :=
  { PageNumber := 0, NextPageNumber := 0, HasNextPage := false,
    HasPreviousPage := false, PageCount := 0, TotalSize := 0 }

/-- `Response` from `paginate.go`: the sequence of conditional updates applied
to the stored response `r0`, with Go `int` arithmetic. -/
def Response (pageNumber pageSize totalSize pageCount : Int)
    (r0 : PaginationResponse) : PaginationResponse :=
  let r := { r0 with PageNumber := pageNumber, PageCount := pageCount,
                     TotalSize := totalSize }
  let r := if goMul pageNumber pageSize < totalSize then
      { r with NextPageNumber := goAdd pageNumber 1, HasNextPage := true }
    else r
  let r := if goMul pageNumber pageSize = totalSize then
      { r with NextPageNumber := 0, HasNextPage := false }
    else r
  let r := if totalSize = 0 then
      { r with NextPageNumber := 0, HasNextPage := false }
    else r
  if r.PageNumber > 1 then { r with HasPreviousPage := true } else r

/-- `Paginate` from the snapshot with dialect support: assemble
`SELECT <cols>, count(*) over() FROM <table> [WHERE] ORDER BY LIMIT/OFFSET`,
and for the `postgres` dialect substitute the numbered placeholders `1..n`
into the `$%v` directives.  The scenario verified here carries no raw
predicates and no explicit order-by options, so the clause helpers are the
ones from `helpers.go`.  `none` propagates the order-by panic. -/
def Paginate (dialect : List Char) (cols : List (List Char)) (tableName : List Char)
    (params : List Parameter) (pageNumber pageSize : Int) (id : List Char) :
    Option (List Char × List (List Char)) :=
  let whereC := createWhereClause cols params
  let pagination := createPaginationClause pageNumber pageSize
  match createOrderByClause params cols id with
  | none => none
  | some order =>
    if whereC.existsFlag then
      let s := chars ("SELECT ") ++ goJoin (chars (", ")) cols ++
        chars (", count(*) over() FROM ") ++ tableName ++ whereC.clause ++
        order ++ pagination
      let s :=
        if dialect = chars ("postgres") then
          substPercentV s ((List.range whereC.args.length).map (fun i => ((i : Int) + 1)))
        else s
      some (s, whereC.args)
    else
      some (chars ("SELECT ") ++ goJoin (chars (", ")) cols ++
        chars (", count(*) over() FROM ") ++ tableName ++ order ++ pagination,
        whereC.args)

/-! The row buffer and scan protocol (`GetRowPtrArgs`, `addRow`, `NextData`,
`Scan` from the latest snapshot).  The reflection-driven copying of scan
destinations into a typed row is abstracted: `α` is the record type, `tmp`
holds the row value the driver scanned into the destinations prepared by the
last `GetRowPtrArgs` call (`none` models `len(p.tmp) == 0`), and the control
flow — flush-on-next-call, the `once` block, FIFO dequeue, closing, the `stop`
flag — is translated branch for branch. -/

/-- The mutable scan-protocol fields of the `paginator` struct. -/
structure PagState (α : Type) where
  rows : List α
  tmp : Option α
  started : Bool
  closed : Bool
  stop : Bool
  onceDone : Bool
  pageCount : Nat
deriving DecidableEq

/-- A freshly constructed paginator: nothing buffered, all flags clear. -/
def initPag {α : Type} : PagState α :=
  { rows := [], tmp := none, started := false, closed := false, stop := false,
    onceDone := false, pageCount := 0 }

/-- `addRow`: fold the pending destination data into a completed row appended
to `rows` and clear `tmp`.  Every call site guards on `len(p.tmp) > 0`, so the
`none` case is unreachable and leaves the state unchanged. -/
def addRow {α : Type} (st : PagState α) : PagState α :=
  match st.tmp with
  | some r => { st with rows := st.rows ++ [r], tmp := none }
  | none => st

/-- `GetRowPtrArgs`: a no-op once consumption has started; otherwise flush any
pending data and prepare destinations for the next physical row, which the
driver then fills with `r`. -/
def GetRowPtrArgs {α : Type} (st : PagState α) (r : α) : PagState α :=
  if st.started then st
  else
    let st := if st.tmp.isSome then addRow st else st
    { st with tmp := some r }

/-- `NextData`: flush any pending destination data into a completed row, then
report whether a completed row remains — unless the paginator was stopped by a
scan error or closed. -/
def NextData {α : Type} (st : PagState α) : Bool × PagState α :=
  if st.tmp.isSome then
    let st' := addRow st
    if st'.stop || st'.closed then (false, st')
    else (decide (0 < st'.rows.length), st')
  else
    if st.stop || st.closed then (false, st)
    else (decide (0 < st.rows.length), st)

/-- The errors `Scan` can return. -/
inductive ScanError where
  | errNilDest
  | errPaginatorIsClosed
  | errInvalidDest
  | errScanWithoutNextData
deriving DecidableEq

/-- `Scan`: the checks in source order (nil destination, closed paginator,
destination validation, empty row queue), the `once` block freezing
`pageCount` and setting `started`, then the FIFO dequeue that closes the
paginator on the last row.  The deferred handler sets `stop` on every error
path.  `destIsNil` models `dest == nil`; `destOk` models `validateDest`
succeeding. -/
def Scan {α : Type} (destIsNil destOk : Bool) (st : PagState α) :
    Except ScanError α × PagState α :=
  if destIsNil then (.error .errNilDest, { st with stop := true })
  else if st.closed then (.error .errPaginatorIsClosed, { st with stop := true })
  else if ¬ destOk then (.error .errInvalidDest, { st with stop := true })
  else if st.rows.isEmpty then (.error .errScanWithoutNextData, { st with stop := true })
  else
    let st :=
      if ¬ st.onceDone then
        let st := if st.tmp.isSome then addRow st else st
        { st with started := true, pageCount := st.rows.length, onceDone := true }
      else st
    match st.rows with
    | [] => (.error .errScanWithoutNextData, { st with stop := true })
    | r :: rest =>
      (.ok r, { st with rows := rest, closed := if rest.isEmpty then true else st.closed })

/-- Feed a sequence of physical rows through `GetRowPtrArgs` in order. -/
def fillAll {α : Type} (st : PagState α) (rs : List α) : PagState α :=
  rs.foldl GetRowPtrArgs st

/-- Drain `k` rows by successive `Scan` calls with a valid destination,
collecting the successfully scanned rows in order; stops early on an error. -/
def scanN {α : Type} : Nat → PagState α → List α × PagState α
  | 0, st => ([], st)
  | k + 1, st =>
    match Scan false true st with
    | (.ok a, st') =>
      let r := scanN k st'
      (a :: r.1, r.2)
    | (.error _, st') => ([], st')

/-- The paginator state after `k` further `Scan` attempts with a valid
destination. -/
def scanIterState {α : Type} : Nat → PagState α → PagState α
  | 0, st => st
  | k + 1, st => scanIterState k (Scan false true st).2

/-! Specification-side characterizations (used only in theorem statements,
never inside the translated definitions). -/

/-- The parameters of `params` arranged in column-declaration order: for each
column in order, the parameters naming it in their original relative order —
the traversal order of `createWhereClause`. -/
def colOrderedParams (colNames : List (List Char)) (params : List Parameter) :
    List Parameter :=
  colNames.flatMap (fun name => params.filter (fun p => p.name = name))

/-- The WHERE fragment `createWhereClause` emits for one parameter. -/
def fragFor (p : Parameter) : List Char :=
  if p.sign = _in ∨ p.sign = _notin then
    p.name ++ chars (" ") ++ p.sign ++ ('(' :: phStr (splitOnChar ',' p.value).length ++ [')'])
  else p.name ++ chars (" ") ++ p.sign ++ chars (" $%v")

/-- The argument values `createWhereClause` appends for one parameter. -/
def argsFor (p : Parameter) : List (List Char) :=
  if p.sign = _in ∨ p.sign = _notin then splitOnChar ',' p.value else [p.value]

/-- First-occurrence deduplication, the specification's reading of
"duplicates are removed keeping first occurrence". -/
def firstKeep : List (List Char) → List (List Char)
  | [] => []
  | a :: l => a :: firstKeep (l.filter (fun x => x ≠ a))
termination_by l => l.length
decreasing_by
  simp only [List.length_cons]
  exact Nat.lt_succ_of_le (List.length_filter_le _ _)

/-- The specification's reading of operator detection: the token must start
with the exact column name and the remainder must start with one of the
operator symbols — tried in the fixed priority order `>=, <=, <>, >, <, =` —
followed by at least one value character. -/
def specOpScan (key value : List Char) : List (List Char) → Option Parameter
  | [] => none
  | op :: rest =>
    if op.isPrefixOf value ∧ op.length < value.length then
      some ⟨key, op, value.drop op.length⟩
    else specOpScan key value rest

/-- The specification's characterization of one token's extraction result. -/
def specTokenMatch (n : List Char) (p : List Char) : Option Parameter :=
  if n.isPrefixOf p ∧ n.length < p.length then
    specOpScan n (p.drop n.length) [gte, lte, ne, gt, lt, eq]
  else none

/-! Helper lemmas. -/

theorem isStringIn_eq (s : List Char) : ∀ l : List (List Char), isStringIn s l = decide (s ∈ l)
  | [] => by simp [isStringIn]
  | e :: rest => by
    by_cases h : s = e <;> simp [isStringIn, h, isStringIn_eq s rest]

theorem isPrefixOf_eq_take : ∀ a b : List Char, a.isPrefixOf b = true ↔ b.take a.length = a
  | [], b => by simp [List.isPrefixOf]
  | x :: a, [] => by simp [List.isPrefixOf]
  | x :: a, y :: b => by
    simp only [List.isPrefixOf, List.length_cons, List.take_succ_cons, Bool.and_eq_true,
      beq_iff_eq, List.cons.injEq, isPrefixOf_eq_take a b]
    tauto

/-- `getP` succeeds exactly when the operator symbol is a proper prefix of the
remainder, producing the triple the specification describes. -/
theorem getP_eq (key val char : List Char) :
    getP key val char =
      if char.isPrefixOf val = true ∧ char.length < val.length then
        some ⟨key, char, val.drop char.length⟩
      else none := by
  by_cases h : char.isPrefixOf val = true ∧ char.length < val.length
  · have htake : val.take char.length = char := (isPrefixOf_eq_take char val).1 h.1
    have hcont : goContains val char = true := by
      cases val with
      | nil => cases char with
        | nil => simp [goContains, List.isEmpty]
        | cons c t => simp [List.isPrefixOf] at h
      | cons v vs => simp [goContains, h.1]
    simp [getP, hcont, htake, h, h.2]
  · simp only [getP]
    split
    · rw [if_neg]
      intro hcon
      exact h ⟨(isPrefixOf_eq_take char val).2 hcon.1, hcon.2⟩
    · simp [h]

theorem firstKeep_cons (a : List Char) (l : List (List Char)) :
    firstKeep (a :: l) = a :: firstKeep (l.filter (fun x => x ≠ a)) := by
  rw [firstKeep]

theorem uniqueValues_foldl_aux (skip : List Char) :
    ∀ (l : List (List Char)) (acc : List (List Char)),
    l.foldl
        (fun unique s =>
          if s = skip then unique
          else if isStringIn s unique then unique else unique ++ [s])
        acc
      = acc ++ firstKeep (l.filter (fun s => decide (s ≠ skip) && ! isStringIn s acc))
  | [], acc => by simp [firstKeep]
  | s :: l, acc => by
    by_cases hs : s = skip
    · rw [List.foldl_cons, if_pos hs]
      rw [uniqueValues_foldl_aux skip l acc]
      congr 2
      simp [List.filter_cons, hs]
    · by_cases hmem : isStringIn s acc = true
      · rw [List.foldl_cons, if_neg hs, if_pos hmem]
        rw [uniqueValues_foldl_aux skip l acc]
        congr 2
        simp [List.filter_cons, hmem]
      · rw [List.foldl_cons, if_neg hs, if_neg hmem]
        rw [uniqueValues_foldl_aux skip l (acc ++ [s])]
        have hpred : (s :: l).filter (fun x => decide (x ≠ skip) && ! isStringIn x acc)
            = s :: l.filter (fun x => decide (x ≠ skip) && ! isStringIn x acc) := by
          simp [List.filter_cons, hs, hmem]
        rw [hpred, firstKeep_cons, List.append_assoc, List.singleton_append,
          List.filter_filter]
        have hfil : (List.filter (fun x => decide (x ≠ skip) && ! isStringIn x (acc ++ [s])) l)
            = List.filter (fun x => decide (x ≠ s) && (decide (x ≠ skip) && ! isStringIn x acc)) l := by
          apply List.filter_congr
          intro x _
          simp only [isStringIn_eq, List.mem_append, List.mem_singleton]
          by_cases h1 : x = skip <;> by_cases h2 : x ∈ acc <;> by_cases h3 : x = s <;>
            simp [h1, h2, h3]
        rw [hfil]

/-- Every term `orderStep` appends is `f ++ " ASC"` or `f ++ " DESC"` for a
column `f` different from the id. -/
theorem orderStep_shape (field id : List Char) (ob : Char) (cl : List (List Char))
    (f : List Char) :
    ∃ added, orderStep field id ob cl f = cl ++ added
      ∧ ∀ t ∈ added, ∃ g, g ≠ id
          ∧ (t = g ++ chars (" ASC") ∨ t = g ++ chars (" DESC")) := by
  unfold orderStep
  by_cases h1 : f = id
  · exact ⟨[], by simp [h1], by simp⟩
  · by_cases h2 : field = f
    · by_cases h3 : ob = '+'
      · by_cases h4 : ob = '-'
        · exact absurd (h3 ▸ h4) (by decide)
        · refine ⟨[field ++ chars (" ASC")], by simp [h1, h2, h3, h4], ?_⟩
          intro t ht
          rw [List.mem_singleton] at ht
          exact ⟨field, h2 ▸ h1, Or.inl ht⟩
      · by_cases h4 : ob = '-'
        · refine ⟨[field ++ chars (" DESC")], by simp [h1, h2, h3, h4], ?_⟩
          intro t ht
          rw [List.mem_singleton] at ht
          exact ⟨field, h2 ▸ h1, Or.inr ht⟩
        · exact ⟨[], by simp [h1, h2, h3, h4], by simp⟩
    · exact ⟨[], by simp [h1, h2], by simp⟩

theorem foldl_orderStep_shape (field id : List Char) (ob : Char) :
    ∀ (cols : List (List Char)) (cl : List (List Char)),
    ∃ added, cols.foldl (orderStep field id ob) cl = cl ++ added
      ∧ ∀ t ∈ added, ∃ g, g ≠ id
          ∧ (t = g ++ chars (" ASC") ∨ t = g ++ chars (" DESC"))
  | [], cl => ⟨[], by simp, by simp⟩
  | f :: cols, cl => by
    obtain ⟨a1, ha1, hs1⟩ := orderStep_shape field id ob cl f
    obtain ⟨a2, ha2, hs2⟩ := foldl_orderStep_shape field id ob cols (cl ++ a1)
    refine ⟨a1 ++ a2, ?_, ?_⟩
    · rw [List.foldl_cons, ha1, ha2, List.append_assoc]
    · intro t ht
      rcases List.mem_append.1 ht with h | h
      · exact hs1 t h
      · exact hs2 t h

theorem sortFieldsLoop_shape (cols : List (List Char)) (id : List Char) :
    ∀ (fields : List (List Char)) (cl res : List (List Char)),
    sortFieldsLoop cols id cl fields = some res →
    ∃ added, res = cl ++ added
      ∧ ∀ t ∈ added, ∃ g, g ≠ id
          ∧ (t = g ++ chars (" ASC") ∨ t = g ++ chars (" DESC"))
  | [], cl, res, h => by
    simp only [sortFieldsLoop] at h
    exact ⟨[], by simpa using (Option.some.inj h).symm, by simp⟩
  | v :: rest, cl, res, h => by
    simp only [sortFieldsLoop] at h
    match v with
    | [] => exact absurd h (by simp)
    | ob :: field =>
      simp only at h
      obtain ⟨a1, ha1, hs1⟩ := foldl_orderStep_shape field id ob cols cl
      obtain ⟨a2, ha2, hs2⟩ := sortFieldsLoop_shape cols id rest _ res h
      rw [ha1] at ha2
      refine ⟨a1 ++ a2, by rw [ha2, List.append_assoc], ?_⟩
      intro t ht
      rcases List.mem_append.1 ht with hm | hm
      · exact hs1 t hm
      · exact hs2 t hm

/-- The six-step operator chain of `getParameters` equals the priority-ordered
scan over the operator list `>=, <=, <>, >, <, =`. -/
theorem opChain_eq_specOpScan (key value : List Char) :
    (match getP key value gte with
      | some newP => some newP
      | none =>
      match getP key value lte with
      | some newP => some newP
      | none =>
      match getP key value ne with
      | some newP => some newP
      | none =>
      match getP key value gt with
      | some newP => some newP
      | none =>
      match getP key value lt with
      | some newP => some newP
      | none => getP key value eq)
      = specOpScan key value [gte, lte, ne, gt, lt, eq] := by
  simp only [getP_eq, specOpScan]
  by_cases h1 : gte.isPrefixOf value = true ∧ gte.length < value.length
  · rw [if_pos h1, if_pos h1]
  · rw [if_neg h1, if_neg h1]
    by_cases h2 : lte.isPrefixOf value = true ∧ lte.length < value.length
    · rw [if_pos h2, if_pos h2]
    · rw [if_neg h2, if_neg h2]
      by_cases h3 : ne.isPrefixOf value = true ∧ ne.length < value.length
      · rw [if_pos h3, if_pos h3]
      · rw [if_neg h3, if_neg h3]
        by_cases h4 : gt.isPrefixOf value = true ∧ gt.length < value.length
        · rw [if_pos h4, if_pos h4]
        · rw [if_neg h4, if_neg h4]
          by_cases h5 : lt.isPrefixOf value = true ∧ lt.length < value.length
          · rw [if_pos h5, if_pos h5]
          · rw [if_neg h5, if_neg h5]

theorem cv_cons_ne (x : Char) (l : List Char) (hx : x ≠ '%') :
    countVs (x :: l) = countVs l := by
  conv_lhs => rw [countVs.eq_def]
  split <;> simp_all

theorem countVs_not_mem_pct : ∀ (a b : List Char), '%' ∉ a → countVs (a ++ b) = countVs b
  | [], _, _ => rfl
  | x :: a, b, h => by
    rw [List.cons_append, cv_cons_ne x _ (fun hx => h (hx ▸ List.mem_cons_self x a)),
      countVs_not_mem_pct a b (fun hm => h (List.mem_cons_of_mem x hm))]

theorem foldl_append_piece (g : Nat → List Char) :
    ∀ (idxs : List Nat) (acc : List Char),
    idxs.foldl (fun str i => str ++ g i) acc = acc ++ (idxs.map g).flatten
  | [], acc => by simp
  | i :: idxs, acc => by
    rw [List.foldl_cons, foldl_append_piece g idxs (acc ++ g i)]
    simp [List.append_assoc]

theorem countVs_flatten_pieces :
    ∀ (ps : List (List Char)) (l : List Char),
    (∀ p ∈ ps, p = chars ("$%v") ∨ p = chars ("$%v,")) →
    countVs (ps.flatten ++ l) = ps.length + countVs l
  | [], l, _ => by simp
  | p :: ps, l, h => by
    have hrest : countVs (ps.flatten ++ l) = ps.length + countVs l :=
      countVs_flatten_pieces ps l (fun q hq => h q (List.mem_cons_of_mem p hq))
    rcases h p (List.mem_cons_self p ps) with hp | hp
    · subst hp
      rw [List.flatten_cons, List.append_assoc]
      show countVs ('$' :: '%' :: 'v' :: (ps.flatten ++ l)) = _
      rw [cv_cons_ne '$' _ (by decide)]
      have hv : countVs ('%' :: 'v' :: (ps.flatten ++ l))
          = countVs (ps.flatten ++ l) + 1 := rfl
      rw [hv, hrest]
      simp only [List.length_cons]
      omega
    · subst hp
      rw [List.flatten_cons, List.append_assoc]
      show countVs ('$' :: '%' :: 'v' :: ',' :: (ps.flatten ++ l)) = _
      rw [cv_cons_ne '$' _ (by decide)]
      have hv : countVs ('%' :: 'v' :: ',' :: (ps.flatten ++ l))
          = countVs (',' :: (ps.flatten ++ l)) + 1 := rfl
      rw [hv, cv_cons_ne ',' _ (by decide), hrest]
      simp only [List.length_cons]
      omega

theorem countVs_phStr_append (m : Nat) (l : List Char) :
    countVs (phStr m ++ l) = m + countVs l := by
  rw [phStr, foldl_append_piece, List.nil_append]
  rw [countVs_flatten_pieces]
  · simp
  · intro p hp
    rcases List.mem_map.1 hp with ⟨i, _, hpi⟩
    by_cases hi : i = m - 1 <;> simp [hi] at hpi <;> subst hpi <;> simp

theorem whereStep_eq (name : List Char) (acc : List (List Char) × List (List Char))
    (p : Parameter) :
    whereStep name acc p =
      if p.name = name then (acc.1 ++ argsFor p, acc.2 ++ [fragFor p]) else acc := by
  unfold whereStep argsFor fragFor
  split_ifs <;> rfl

theorem whereFold_inner (name : List Char) :
    ∀ (params : List Parameter) (acc : List (List Char) × List (List Char)),
    params.foldl (whereStep name) acc
      = (acc.1 ++ (params.filter (fun p => p.name = name)).flatMap argsFor,
         acc.2 ++ (params.filter (fun p => p.name = name)).map fragFor)
  | [], acc => by simp
  | p :: params, acc => by
    rw [List.foldl_cons, whereStep_eq]
    by_cases hp : p.name = name
    · rw [if_pos hp, whereFold_inner name params _]
      simp [List.filter_cons, hp, List.append_assoc]
    · rw [if_neg hp, whereFold_inner name params acc]
      simp [List.filter_cons, hp]

theorem whereFold_eq :
    ∀ (cols : List (List Char)) (params : List Parameter)
      (acc : List (List Char) × List (List Char)),
    cols.foldl (fun acc name => params.foldl (whereStep name) acc) acc
      = (acc.1 ++ (colOrderedParams cols params).flatMap argsFor,
         acc.2 ++ (colOrderedParams cols params).map fragFor)
  | [], params, acc => by simp [colOrderedParams]
  | n :: cols, params, acc => by
    rw [List.foldl_cons, whereFold_inner, whereFold_eq cols params _]
    simp [colOrderedParams, List.append_assoc]

theorem fill_go {α : Type} : ∀ (rs rows : List α) (t : α),
    ∃ rows' t',
      fillAll ⟨rows, some t, false, false, false, false, 0⟩ rs
        = ⟨rows', some t', false, false, false, false, 0⟩
      ∧ rows' ++ [t'] = rows ++ t :: rs
  | [], rows, t => ⟨rows, t, rfl, rfl⟩
  | r :: rs, rows, t => by
    obtain ⟨rows', t', heq, hcat⟩ := fill_go rs (rows ++ [t]) r
    refine ⟨rows', t', ?_, ?_⟩
    · show fillAll _ (r :: rs) = _
      rw [fillAll, List.foldl_cons]
      have hg : GetRowPtrArgs (⟨rows, some t, false, false, false, false, 0⟩ : PagState α) r
          = ⟨rows ++ [t], some r, false, false, false, false, 0⟩ := rfl
      rw [hg]
      exact heq
    · rw [hcat]
      simp

/-- Feeding `rs` and then flushing through `NextData` leaves exactly `rs`
buffered in FIFO order. -/
theorem flush_state {α : Type} (rs : List α) (h : rs ≠ []) :
    (NextData (fillAll initPag rs)).2 = ⟨rs, none, false, false, false, false, 0⟩ := by
  cases rs with
  | nil => exact absurd rfl h
  | cons r rs =>
    obtain ⟨rows', t', heq, hcat⟩ := fill_go rs [] r
    have h1 : fillAll initPag (r :: rs)
        = fillAll ⟨[], some r, false, false, false, false, 0⟩ rs := by
      rw [fillAll, fillAll, List.foldl_cons]
      rfl
    rw [h1, heq]
    have h2 : (NextData (⟨rows', some t', false, false, false, false, 0⟩ : PagState α)).2
        = ⟨rows' ++ [t'], none, false, false, false, false, 0⟩ := rfl
    rw [h2, hcat]
    simp

theorem scanN_ok_step {α : Type} (k : Nat) (st : PagState α) (a : α) (st2 : PagState α)
    (h : Scan false true st = (.ok a, st2)) :
    scanN (k + 1) st = (a :: (scanN k st2).1, (scanN k st2).2) := by
  simp only [scanN, h]

theorem scanN_post {α : Type} : ∀ (l : List α) (pc : Nat), l ≠ [] →
    scanN l.length ⟨l, none, true, false, false, true, pc⟩
      = (l, ⟨[], none, true, true, false, true, pc⟩)
  | [], _, h => absurd rfl h
  | [r], _, _ => rfl
  | r1 :: r2 :: l, pc, _ => by
    have hstep : Scan false true (⟨r1 :: r2 :: l, none, true, false, false, true, pc⟩ : PagState α)
        = (.ok r1, ⟨r2 :: l, none, true, false, false, true, pc⟩) := rfl
    show scanN ((r2 :: l).length + 1) _ = _
    rw [scanN_ok_step _ _ _ _ hstep, scanN_post (r2 :: l) pc (by simp)]

/-- Draining a freshly flushed buffer of `l` rows returns `l` in order and
closes the paginator, freezing `pageCount` at `l.length`. -/
theorem scanN_from_flushed {α : Type} : ∀ (l : List α), l ≠ [] →
    scanN l.length ⟨l, none, false, false, false, false, 0⟩
      = (l, ⟨[], none, true, true, false, true, l.length⟩)
  | [], h => absurd rfl h
  | [r], _ => rfl
  | r :: r2 :: l2, _ => by
    have hstep : Scan false true (⟨r :: r2 :: l2, none, false, false, false, false, 0⟩ : PagState α)
        = (.ok r, ⟨r2 :: l2, none, true, false, false, true, (r :: r2 :: l2).length⟩) := rfl
    show scanN ((r2 :: l2).length + 1) _ = _
    rw [scanN_ok_step _ _ _ _ hstep, scanN_post (r2 :: l2) _ (by simp)]

theorem scan_closed_step {α : Type} (st : PagState α) (d : Bool) (h : st.closed = true) :
    (Scan false d st).1 = Except.error ScanError.errPaginatorIsClosed
    ∧ (Scan false d st).2.closed = true := by
  constructor <;> simp [Scan, h]

theorem scanIter_closed {α : Type} : ∀ (k : Nat) (st : PagState α), st.closed = true →
    (scanIterState k st).closed = true
  | 0, _, h => h
  | k + 1, st, h => scanIter_closed k _ ((scan_closed_step st true h).2)

/-- Characterization of `createWhereClause`: fragments and arguments in
column-declaration order. -/
theorem createWhereClause_spec (cols : List (List Char)) (params : List Parameter) :
    createWhereClause cols params
      = { clause := chars (" WHERE ")
            ++ goJoin (if (colOrderedParams cols params).length = 1 then []
                        else chars (" AND "))
                ((colOrderedParams cols params).map fragFor)
          args := (colOrderedParams cols params).flatMap argsFor
          existsFlag := decide (0 < (colOrderedParams cols params).length) } := by
  have hwf : whereFold cols params
      = ((colOrderedParams cols params).flatMap argsFor,
         (colOrderedParams cols params).map fragFor) := by
    rw [whereFold, whereFold_eq]
    simp
  rw [createWhereClause, hwf]
  simp [List.length_map]

/-- Every fragment carries exactly as many `$%v` placeholders as argument
values, provided the column name and operator sign contain no `%`. -/
theorem countVs_fragFor (p : Parameter) (hname : '%' ∉ p.name) (hsign : '%' ∉ p.sign) :
    countVs (fragFor p) = (argsFor p).length := by
  rw [fragFor, argsFor]
  by_cases hInOp : p.sign = _in ∨ p.sign = _notin
  · rw [if_pos hInOp, if_pos hInOp]
    rw [List.append_assoc, List.append_assoc]
    rw [countVs_not_mem_pct _ _ hname]
    rw [show chars (" ") ++ (p.sign ++ ('(' :: phStr (splitOnChar ',' p.value).length ++ [')']))
        = ' ' :: (p.sign ++ ('(' :: phStr (splitOnChar ',' p.value).length ++ [')'])) from rfl]
    rw [cv_cons_ne ' ' _ (by decide)]
    rw [countVs_not_mem_pct _ _ hsign]
    rw [List.cons_append, cv_cons_ne '(' _ (by decide)]
    rw [countVs_phStr_append]
    have h0 : countVs [')'] = 0 := rfl
    rw [h0]
    omega
  · rw [if_neg hInOp, if_neg hInOp]
    rw [List.append_assoc, List.append_assoc]
    rw [countVs_not_mem_pct _ _ hname]
    rw [show chars (" ") ++ (p.sign ++ chars (" $%v"))
        = ' ' :: (p.sign ++ chars (" $%v")) from rfl]
    rw [cv_cons_ne ' ' _ (by decide)]
    rw [countVs_not_mem_pct _ _ hsign]
    rfl

theorem splitOnChar_ne_nil (sep : Char) : ∀ l : List Char, splitOnChar sep l ≠ []
  | [] => by simp [splitOnChar]
  | c :: rest => by
    rw [splitOnChar]
    rcases h : splitOnChar sep rest with _ | ⟨x, t⟩
    · simp
    · by_cases hc : c = sep <;> simp [hc]

theorem splitOnChar_no_sep (sep : Char) : ∀ a : List Char, sep ∉ a → splitOnChar sep a = [a]
  | [], _ => rfl
  | c :: a, h => by
    rw [splitOnChar]
    simp only [splitOnChar_no_sep sep a (fun hm => h (List.mem_cons_of_mem c hm))]
    rw [if_neg (fun hc => h (by rw [hc]; exact List.mem_cons_self sep a))]

theorem splitOnChar_sep_append (sep : Char) :
    ∀ (a b : List Char), sep ∉ a →
    splitOnChar sep (a ++ sep :: b) = a :: splitOnChar sep b
  | [], b, _ => by
    rw [List.nil_append, splitOnChar]
    rcases h : splitOnChar sep b with _ | ⟨x, t⟩
    · exact absurd h (splitOnChar_ne_nil sep b)
    · simp
  | c :: a, b, h => by
    rw [List.cons_append, splitOnChar]
    simp only [splitOnChar_sep_append sep a b (fun hm => h (List.mem_cons_of_mem c hm))]
    rw [if_neg (fun hc => h (by rw [hc]; exact List.mem_cons_self sep a))]

theorem gte_chars : gte = ['>', '='] := rfl

theorem comma_chars : chars (",") = [','] := rfl

theorem lte_chars : lte = ['<', '='] := rfl

theorem ne_chars : ne = ['<', '>'] := rfl

theorem gt_chars : gt = ['>'] := rfl

theorem lt_chars : lt = ['<'] := rfl

theorem eq_chars : eq = ['='] := rfl

/-- A token of the exact shape `column=value` with a nonempty value always
extracts as a plain equality parameter. -/
theorem matchToken_eq_token (c X : List Char) (hX : X ≠ []) :
    matchToken c [c] (c ++ '=' :: X) = some ⟨c, eq, X⟩ := by
  have hlen : ¬ ((c ++ '=' :: X).length ≤ c.length) := by
    have hl : (c ++ '=' :: X).length = c.length + (X.length + 1) := by
      rw [List.length_append, List.length_cons]
    omega
  have htake : (c ++ '=' :: X).take c.length = c := List.take_left c ('=' :: X)
  have hdrop : (c ++ '=' :: X).drop c.length = '=' :: X := List.drop_left c ('=' :: X)
  have hfil : isStringIn c [c] = true := by simp [isStringIn]
  have h1 : getP c ('=' :: X) gte = none := by
    rw [getP_eq, if_neg]
    intro hcon
    rw [gte_chars] at hcon
    simp [List.isPrefixOf] at hcon
  have h2 : getP c ('=' :: X) lte = none := by
    rw [getP_eq, if_neg]
    intro hcon
    rw [lte_chars] at hcon
    simp [List.isPrefixOf] at hcon
  have h3 : getP c ('=' :: X) ne = none := by
    rw [getP_eq, if_neg]
    intro hcon
    rw [ne_chars] at hcon
    simp [List.isPrefixOf] at hcon
  have h4 : getP c ('=' :: X) gt = none := by
    rw [getP_eq, if_neg]
    intro hcon
    rw [gt_chars] at hcon
    simp [List.isPrefixOf] at hcon
  have h5 : getP c ('=' :: X) lt = none := by
    rw [getP_eq, if_neg]
    intro hcon
    rw [lt_chars] at hcon
    simp [List.isPrefixOf] at hcon
  have h6 : getP c ('=' :: X) eq = some ⟨c, eq, X⟩ := by
    rw [getP_eq, if_pos]
    · rw [eq_chars]
      simp
    · rw [eq_chars]
      refine ⟨by simp [List.isPrefixOf], ?_⟩
      have hx : 0 < X.length := List.length_pos.2 hX
      have h1 : ('=' :: X).length = X.length + 1 := List.length_cons _ _
      have h2 : (['='] : List Char).length = 1 := rfl
      omega
  simp only [matchToken, if_neg hlen, htake, hdrop, hfil, h1, h2, h3, h4, h5, h6,
    ne_eq, not_true_eq_false, if_false, Bool.true_eq_false, not_false_eq_true, if_true]

/-- Three equality parameters on the same column with pairwise distinct
values collapse into a single `IN` parameter whose value joins the three in
first-seen order. -/
theorem dedup_three (c A B C : List Char) (hAB : A ≠ B) (hAC : A ≠ C) (hBC : B ≠ C) :
    dedupPass eq _in [⟨c, eq, A⟩, ⟨c, eq, B⟩, ⟨c, eq, C⟩]
      = [⟨c, _in, A ++ ',' :: (B ++ ',' :: C)⟩] := by
  have hBA : B ≠ A := Ne.symm hAB
  have hCA : C ≠ A := Ne.symm hAC
  have hCB : C ≠ B := Ne.symm hBC
  simp [dedupPass, dupScan, dupInsert, isStringIn, goJoin, List.enum, List.enumFrom,
    List.lookup, hAB, hAC, hBC, hBA, hCA, hCB, List.append_assoc, comma_chars,
    List.singleton_append]

/-- A pass over signs that do not occur leaves the parameter list unchanged. -/
theorem dedup_ne_single (c V : List Char) :
    dedupPass ne _notin [⟨c, _in, V⟩] = [⟨c, _in, V⟩] := by
  have h : _in ≠ ne := by decide
  simp [dedupPass, List.enum, List.enumFrom, h]

theorem take4_append_ne (c X : List Char) (hc : c.take 4 ≠ chars ("sort")) :
    (c ++ '=' :: X).take 4 ≠ chars ("sort") := by
  have hs : chars ("sort") = ['s', 'o', 'r', 't'] := rfl
  rw [hs] at hc ⊢
  match c with
  | [] =>
    intro h
    simp [List.take_succ_cons] at h
  | [a] =>
    intro h
    simp [List.take_succ_cons] at h
  | [a, b] =>
    intro h
    simp [List.take_succ_cons] at h
  | [a, b, d] =>
    intro h
    simp [List.take_succ_cons] at h
  | a :: b :: d :: e :: rest =>
    intro h
    simp only [List.cons_append, List.take_succ_cons, List.take_zero] at h
    simp only [List.take_succ_cons, List.take_zero] at hc
    exact hc h

/-- A token of the shape `column=value` is never picked up by the reserved
`sort` scan when the column name does not begin with `sort`. -/
theorem sortToken_none (c X : List Char) (hc : c.take 4 ≠ chars ("sort")) :
    sortToken (c ++ '=' :: X) = none := by
  simp only [sortToken]
  by_cases hlen : (c ++ '=' :: X).length ≤ (chars ("sort")).length
  · rw [if_pos hlen]
  · have htk : (c ++ '=' :: X).take (chars ("sort")).length ≠ chars ("sort") :=
      take4_append_ne c X hc
    rw [if_neg hlen, if_pos htk]

/-! Claim theorems. -/

/-- C1: for the record type with columns `[id, name, last_name]`, id column
`id`, table `employees`, the numbered-placeholder (postgres) dialect, the
column `name` filterable, and the query string `?name=Ringo&sort=-id`,
`Paginate()` returns exactly
`SELECT id, name, last_name, count(*) over() FROM employees WHERE name = $1 ORDER BY id LIMIT 30 OFFSET 0`,
the argument list `["Ringo"]`, and no error. -/
theorem c1_end_to_end :
    Paginate (chars ("postgres")) [chars ("id"), chars ("name"), chars ("last_name")]
        (chars ("employees"))
        (getParameters [chars ("id"), chars ("name"), chars ("last_name")]
          [chars ("name")] (chars ("?name=Ringo&sort=-id")))
        1 30 (chars ("id")) =
      some (chars ("SELECT id, name, last_name, count(*) over() FROM employees WHERE name = $1 ORDER BY id LIMIT 30 OFFSET 0"),
        [chars ("Ringo")]) := by
  decide

/-- C2 counterexample: for the filterable column named `sort` — which the
claim's universal quantification over filterable columns includes — the query
`?sort=A&sort=B&sort=C` yields four parameters for that column (the collapsed
`IN` parameter plus the three occurrences re-collected by the reserved-sort
scan), not exactly one. -/
theorem c2_counterexample :
    ((getParameters [chars ("sort")] [chars ("sort")]
        (chars ("?sort=A&sort=B&sort=C"))).filter
      (fun p => p.name = chars ("sort"))).length = 4 := by
  decide

/-- C4: for every filterable column name `n` and every raw `&`-separated
token, the token scan of `getParameters` agrees with the specification's
characterization: a parameter is produced exactly when the token starts with
the exact name followed immediately by an operator symbol — tried in the fixed
priority order `>=, <=, <>, >, <, =` — with at least one value character after
it; otherwise the token is not a match. -/
theorem c4_operator_priority (n : List Char) (filters : List (List Char))
    (p : List Char) (hf : isStringIn n filters = true) :
    matchToken n filters p = specTokenMatch n p := by
  by_cases hlen : p.length ≤ n.length
  · have hnot : ¬ (n.isPrefixOf p = true ∧ n.length < p.length) := by
      intro hcon
      omega
    rw [specTokenMatch, if_neg hnot]
    simp [matchToken, hlen]
  · by_cases hkey : p.take n.length = n
    · have hpre : n.isPrefixOf p = true := (isPrefixOf_eq_take n p).2 hkey
      have hlt : n.length < p.length := by omega
      rw [specTokenMatch, if_pos ⟨hpre, hlt⟩]
      simp only [matchToken, if_neg hlen, hkey, hf, ne_eq, not_true_eq_false,
        if_false, Bool.true_eq_false, not_false_eq_true, if_true]
      exact opChain_eq_specOpScan n (p.drop n.length)
    · have hpre : ¬ n.isPrefixOf p = true := fun hc => hkey ((isPrefixOf_eq_take n p).1 hc)
      simp [matchToken, specTokenMatch, hlen, hkey, hpre]

/-- C4 witness: the characterization applied to the filterable column `age`
and the token `age>=30`, where the priority order selects `>=` over `>`. -/
theorem c4_operator_priority_witness :
    isStringIn (chars ("age")) [chars ("age")] = true
    ∧ matchToken (chars ("age")) [chars ("age")] (chars ("age>=30"))
        = specTokenMatch (chars ("age")) (chars ("age>=30"))
    ∧ matchToken (chars ("age")) [chars ("age")] (chars ("age>=30"))
        = some ⟨chars ("age"), gte, chars ("30")⟩ :=
  ⟨by decide,
   c4_operator_priority (chars ("age")) [chars ("age")] (chars ("age>=30")) (by decide),
   by decide⟩

/-- C2 amended: for every filterable column `c` that does not begin with the
reserved name `sort`, and pairwise distinct nonempty values `A, B, C` free of
the separator characters `&` and `,` (and `%`-free `c`, as placeholders are
counted), extraction from `?c=A&c=B&c=C` yields exactly one parameter for `c`,
with operator `IN`, whose value splits on `,` back into `[A, B, C]` in
first-seen order; building the WHERE clause from that parameter emits exactly
3 placeholders and the 3 argument values in that order. -/
theorem c2_in_round_trip (c A B C : List Char)
    (hc : '&' ∉ c ∧ '%' ∉ c ∧ c.take 4 ≠ chars ("sort"))
    (hA : A ≠ [] ∧ ',' ∉ A ∧ '&' ∉ A)
    (hB : B ≠ [] ∧ ',' ∉ B ∧ '&' ∉ B)
    (hC : C ≠ [] ∧ ',' ∉ C ∧ '&' ∉ C)
    (hd : A ≠ B ∧ A ≠ C ∧ B ≠ C) :
    getParameters [c] [c]
        (chars ("?") ++ c ++ chars ("=") ++ A ++ chars ("&") ++ c ++ chars ("=") ++ B
          ++ chars ("&") ++ c ++ chars ("=") ++ C)
      = [⟨c, _in, A ++ ',' :: (B ++ ',' :: C)⟩]
    ∧ splitOnChar ',' (A ++ ',' :: (B ++ ',' :: C)) = [A, B, C]
    ∧ (createWhereClause [c] [⟨c, _in, A ++ ',' :: (B ++ ',' :: C)⟩]).args = [A, B, C]
    ∧ countVs (createWhereClause [c] [⟨c, _in, A ++ ',' :: (B ++ ',' :: C)⟩]).clause = 3 := by
  obtain ⟨hcAmp, hcPct, hcSort⟩ := hc
  obtain ⟨hAne, hAc, hAa⟩ := hA
  obtain ⟨hBne, hBc, hBa⟩ := hB
  obtain ⟨hCne, hCc, hCa⟩ := hC
  obtain ⟨hAB, hAC, hBC⟩ := hd
  have hsplitV : splitOnChar ',' (A ++ ',' :: (B ++ ',' :: C)) = [A, B, C] := by
    rw [splitOnChar_sep_append ',' A _ hAc, splitOnChar_sep_append ',' B C hBc,
      splitOnChar_no_sep ',' C hCc]
  have hurl : chars ("?") ++ c ++ chars ("=") ++ A ++ chars ("&") ++ c ++ chars ("=") ++ B
        ++ chars ("&") ++ c ++ chars ("=") ++ C
      = '?' :: ((c ++ '=' :: A) ++ '&' :: ((c ++ '=' :: B) ++ '&' :: (c ++ '=' :: C))) := by
    have hq : chars ("?") = ['?'] := rfl
    have he : chars ("=") = ['='] := rfl
    have ha : chars ("&") = ['&'] := rfl
    rw [hq, he, ha]
    simp only [List.append_assoc, List.cons_append, List.singleton_append, List.nil_append]
  have hm1 : ('&' : Char) ∉ c ++ '=' :: A := by
    intro hm
    rcases List.mem_append.1 hm with h | h
    · exact hcAmp h
    · rcases List.mem_cons.1 h with h2 | h2
      · exact absurd h2 (by decide)
      · exact hAa h2
  have hm2 : ('&' : Char) ∉ c ++ '=' :: B := by
    intro hm
    rcases List.mem_append.1 hm with h | h
    · exact hcAmp h
    · rcases List.mem_cons.1 h with h2 | h2
      · exact absurd h2 (by decide)
      · exact hBa h2
  have hm3 : ('&' : Char) ∉ c ++ '=' :: C := by
    intro hm
    rcases List.mem_append.1 hm with h | h
    · exact hcAmp h
    · rcases List.mem_cons.1 h with h2 | h2
      · exact absurd h2 (by decide)
      · exact hCa h2
  have hfind : (('?' :: ((c ++ '=' :: A) ++ '&' :: ((c ++ '=' :: B) ++ '&' :: (c ++ '=' :: C)))).findIdx?
      (fun ch => ch = '?')) = some 0 := rfl
  have hps : getParameters [c] [c]
        (chars ("?") ++ c ++ chars ("=") ++ A ++ chars ("&") ++ c ++ chars ("=") ++ B
          ++ chars ("&") ++ c ++ chars ("=") ++ C)
      = [⟨c, _in, A ++ ',' :: (B ++ ',' :: C)⟩] := by
    rw [hurl]
    simp only [getParameters, hfind]
    simp only [List.drop_succ_cons, List.drop_zero]
    rw [splitOnChar_sep_append '&' _ _ hm1, splitOnChar_sep_append '&' _ _ hm2,
      splitOnChar_no_sep '&' _ hm3]
    simp only [rawParams, List.flatMap_cons, List.flatMap_nil, List.append_nil,
      List.filterMap_cons, matchToken_eq_token c A hAne, matchToken_eq_token c B hBne,
      matchToken_eq_token c C hCne, List.filterMap_nil]
    rw [dedup_three c A B C hAB hAC hBC, dedup_ne_single]
    simp only [List.filterMap_cons, sortToken_none c A hcSort, sortToken_none c B hcSort,
      sortToken_none c C hcSort, List.filterMap_nil, List.append_nil]
  have hcop : colOrderedParams [c] [⟨c, _in, A ++ ',' :: (B ++ ',' :: C)⟩]
      = [⟨c, _in, A ++ ',' :: (B ++ ',' :: C)⟩] := by
    simp [colOrderedParams]
  refine ⟨hps, hsplitV, ?_, ?_⟩
  · rw [createWhereClause_spec]
    show (colOrderedParams [c] [⟨c, _in, A ++ ',' :: (B ++ ',' :: C)⟩]).flatMap argsFor
        = [A, B, C]
    rw [hcop]
    simp only [List.flatMap_cons, List.flatMap_nil, List.append_nil]
    rw [show argsFor ⟨c, _in, A ++ ',' :: (B ++ ',' :: C)⟩
        = splitOnChar ',' (A ++ ',' :: (B ++ ',' :: C)) from by
      simp [argsFor]]
    exact hsplitV
  · rw [createWhereClause_spec]
    show countVs (chars (" WHERE ")
        ++ goJoin (if (colOrderedParams [c] [⟨c, _in, A ++ ',' :: (B ++ ',' :: C)⟩]).length = 1
            then [] else chars (" AND "))
          ((colOrderedParams [c] [⟨c, _in, A ++ ',' :: (B ++ ',' :: C)⟩]).map fragFor)) = 3
    rw [hcop]
    rw [if_pos (by rfl), List.map_cons, List.map_nil]
    rw [show goJoin [] [fragFor ⟨c, _in, A ++ ',' :: (B ++ ',' :: C)⟩]
        = fragFor ⟨c, _in, A ++ ',' :: (B ++ ',' :: C)⟩ from rfl]
    rw [countVs_not_mem_pct _ _ (by decide : ('%' : Char) ∉ chars (" WHERE "))]
    rw [countVs_fragFor ⟨c, _in, A ++ ',' :: (B ++ ',' :: C)⟩ hcPct
      (show ('%' : Char) ∉ _in from by decide)]
    show (argsFor ⟨c, _in, A ++ ',' :: (B ++ ',' :: C)⟩).length = 3
    rw [show argsFor ⟨c, _in, A ++ ',' :: (B ++ ',' :: C)⟩
        = splitOnChar ',' (A ++ ',' :: (B ++ ',' :: C)) from by
      simp [argsFor]]
    rw [hsplitV]
    rfl

/-- C2 witness: the round trip at the column `name` with values `a, b, c`. -/
theorem c2_in_round_trip_witness :
    (('&' ∉ chars ("name")) ∧ ('%' ∉ chars ("name"))
      ∧ (chars ("name")).take 4 ≠ chars ("sort"))
    ∧ getParameters [chars ("name")] [chars ("name")]
        (chars ("?") ++ chars ("name") ++ chars ("=") ++ chars ("a") ++ chars ("&")
          ++ chars ("name") ++ chars ("=") ++ chars ("b") ++ chars ("&")
          ++ chars ("name") ++ chars ("=") ++ chars ("c"))
      = [⟨chars ("name"), _in, chars ("a") ++ ',' :: (chars ("b") ++ ',' :: chars ("c"))⟩] :=
  ⟨by decide,
   (c2_in_round_trip (chars ("name")) (chars ("a")) (chars ("b")) (chars ("c"))
     (by decide) (by decide) (by decide) (by decide) (by decide)).1⟩

/-- C5: starting from the zero-valued stored response, `Response` computes
`hasNextPage = (pageNumber*pageSize) < totalSize` (Go 64-bit product), with
`nextPageNumber = pageNumber+1` exactly when that comparison holds, both
forced to `false`/`0` when `totalSize = 0`, and `hasPreviousPage` exactly when
`pageNumber > 1`. -/
theorem c5_response_formula (pn ps ts pc : Int) :
    (Response pn ps ts pc zeroResponse).HasNextPage
        = (decide (ts ≠ 0) && decide (goMul pn ps < ts))
    ∧ (Response pn ps ts pc zeroResponse).NextPageNumber
        = (if ts ≠ 0 ∧ goMul pn ps < ts then goAdd pn 1 else 0)
    ∧ (Response pn ps ts pc zeroResponse).HasPreviousPage = decide (1 < pn)
    ∧ (Response pn ps ts pc zeroResponse).PageNumber = pn
    ∧ (Response pn ps ts pc zeroResponse).PageCount = pc
    ∧ (Response pn ps ts pc zeroResponse).TotalSize = ts := by
  simp only [Response, zeroResponse]
  split_ifs <;> simp_all

/-- C6 counterexample: with the (reachable) Go `int` inputs `pageNumber = 3`
and `pageSize = 2^62`, the product `pageSize * (pageNumber - 1)` overflows
64-bit arithmetic and the emitted offset is `-2^63` — negative, and not equal
to the mathematical `P × (n − 1) = 2^63`. -/
theorem c6_counterexample :
    paginationOffset 3 (2 ^ 62) = -(2 ^ 63)
    ∧ paginationOffset 3 (2 ^ 62) < 0
    ∧ (2 ^ 62 : Int) * (3 - 1) = 2 ^ 63 := by
  decide

/-- C6 amended: for every integer `pageNumber` `n` and positive `pageSize`
`P`, the clause is `" LIMIT P  OFFSET <offset>"` with `offset = 0` for
`n ≤ 1` and the 64-bit wrap of `P × (n − 1)` for `n > 1`; whenever that
product does not overflow (`P × (n − 1) < 2^63`) the offset equals exactly
`P × (n − 1)` and is nonnegative. -/
theorem c6_pagination_clause (n P : Int) (hP : 0 < P) :
    createPaginationClause n P =
      chars (" LIMIT ") ++ intChars P ++ chars (" ") ++ chars ("OFFSET ")
        ++ intChars (paginationOffset n P)
    ∧ (n ≤ 1 → paginationOffset n P = 0)
    ∧ (1 < n → paginationOffset n P = wrap64 (P * (n - 1)))
    ∧ (1 < n → P * (n - 1) < 2 ^ 63 →
        paginationOffset n P = P * (n - 1) ∧ 0 ≤ paginationOffset n P) := by
  refine ⟨rfl, ?_, ?_, ?_⟩
  · intro h
    simp only [paginationOffset]
    rw [if_pos]
    omega
  · intro h
    simp only [paginationOffset]
    rw [if_neg]
    · rfl
    · omega
  · intro h hov
    have hx : 0 ≤ P * (n - 1) := mul_nonneg (le_of_lt hP) (by omega)
    have hoff : paginationOffset n P = wrap64 (P * (n - 1)) := by
      simp only [paginationOffset, goMul]
      rw [if_neg (by omega)]
    rw [hoff]
    unfold wrap64
    rw [Int.emod_eq_of_lt (by omega) (by omega)]
    constructor <;> omega

/-- C6 witness: the amended pagination-clause theorem applied at
`pageNumber = 2`, `pageSize = 30`. -/
theorem c6_pagination_clause_witness :
    (0 : Int) < 30 ∧ paginationOffset 2 30 = 30 ∧ 0 ≤ paginationOffset 2 30 :=
  ⟨by decide,
   (((c6_pagination_clause 2 30 (by decide)).2.2.2 (by decide) (by decide)).1).trans (by decide),
   ((c6_pagination_clause 2 30 (by decide)).2.2.2 (by decide) (by decide)).2⟩

/-- C3: for every parameter list, column list and designated id column (id
columns derive from Go field identifiers, hence contain no space), whenever
the ORDER BY term list is built (no panic), its last term is exactly the id
column, the id never appears as an earlier term, and no earlier term sorts by
the id — a sort token naming the id is dropped, not emitted. -/
theorem c3_id_always_last (params : List Parameter) (colNames : List (List Char))
    (id : List Char) (hid : ' ' ∉ id) (ts : List (List Char))
    (h : orderByTerms params colNames id = some ts) :
    ts ≠ []
    ∧ ts.getLast? = some id
    ∧ id ∉ ts.dropLast
    ∧ ∀ t ∈ ts.dropLast, t ≠ id ++ chars (" ASC") ∧ t ≠ id ++ chars (" DESC") := by
  have hASC : chars (" ASC") = [' ', 'A', 'S', 'C'] := rfl
  have hDESC : chars (" DESC") = [' ', 'D', 'E', 'S', 'C'] := rfl
  rcases hg : getParameter params (chars ("sort")) with _ | sp
  · simp only [orderByTerms, hg, Option.some.injEq] at h
    subst h
    refine ⟨by simp, by simp, by simp, by simp⟩
  · simp only [orderByTerms, hg] at h
    rcases hl : sortFieldsLoop colNames id [] (splitOnChar ',' sp.value) with _ | clauses
    · rw [hl] at h
      exact absurd h (by simp)
    · rw [hl] at h
      simp only [Option.some.injEq] at h
      subst h
      obtain ⟨added, hadd, hshape⟩ := sortFieldsLoop_shape colNames id _ _ _ hl
      simp only [List.nil_append] at hadd
      subst hadd
      refine ⟨by simp, ?_, ?_, ?_⟩
      · exact List.getLast?_concat _
      · rw [List.dropLast_concat]
        intro hmem
        obtain ⟨g, hg1, hg2⟩ := hshape id hmem
        rcases hg2 with hcase | hcase
        · exact hid (by rw [hcase, hASC]; simp)
        · exact hid (by rw [hcase, hDESC]; simp)
      · rw [List.dropLast_concat]
        intro t ht
        obtain ⟨g, hg1, hg2⟩ := hshape t ht
        rcases hg2 with hcase | hcase
        · subst hcase
          constructor
          · intro heq
            exact hg1 (List.append_cancel_right heq)
          · intro heq
            have h2 := congrArg (fun l => l.reverse.get? 2) heq
            rw [hASC, hDESC] at h2
            simp [List.reverse_append] at h2
        · subst hcase
          constructor
          · intro heq
            have h2 := congrArg (fun l => l.reverse.get? 2) heq
            rw [hASC, hDESC] at h2
            simp [List.reverse_append] at h2
          · intro heq
            exact hg1 (List.append_cancel_right heq)

/-- C3 witness: the invariant applied to the sort parameter `+name` over
columns `[id, name]` with id column `id`. -/
theorem c3_id_always_last_witness :
    (' ' ∉ chars ("id"))
    ∧ ([chars ("name ASC"), chars ("id")] ≠ []
      ∧ [chars ("name ASC"), chars ("id")].getLast? = some (chars ("id"))
      ∧ chars ("id") ∉ [chars ("name ASC"), chars ("id")].dropLast
      ∧ ∀ t ∈ [chars ("name ASC"), chars ("id")].dropLast,
          t ≠ chars ("id") ++ chars (" ASC") ∧ t ≠ chars ("id") ++ chars (" DESC")) :=
  ⟨by decide,
   c3_id_always_last [⟨chars ("sort"), eq, chars ("+name")⟩]
     [chars ("id"), chars ("name")] (chars ("id")) (by decide)
     [chars ("name ASC"), chars ("id")] (by decide)⟩

/-- C7 amended: the deduplication keeping only the first occurrence (with the
id stripped) holds for the explicit order-by options, which flow through
`orderBy.UniqueValues`; the sort-parameter path of `createOrderByClause`
emits one term per matching token and does not remove duplicates. -/
theorem c7_unique_values (o : List (List Char)) (skipId : List Char) :
    UniqueValues o skipId = firstKeep (o.filter (fun s => decide (s ≠ skipId))) := by
  rw [UniqueValues, uniqueValues_foldl_aux]
  rw [List.nil_append]
  congr 1
  apply List.filter_congr
  intro x _
  simp [isStringIn]

/-- C9 amended: if the rows `r0..r(N-1)` have been buffered through
`GetRowPtrArgs` in order and flushed by the protocol's `NextData` call, the
`N` successive `Scan` calls succeed and copy `r0, r1, ...` in exactly that
FIFO order, the `N`-th successful `Scan` leaves the paginator closed with
`pageCount` frozen at `N`, and every subsequent `Scan` call *with a non-nil
destination* fails with `ErrPaginatorIsClosed` (a nil destination fails with
the nil-destination error instead, which the source checks first). -/
theorem c9_scan_fifo {α : Type} (rs : List α) (h : rs ≠ []) :
    (scanN rs.length (NextData (fillAll initPag rs)).2).1 = rs
    ∧ (scanN rs.length (NextData (fillAll initPag rs)).2).2.closed = true
    ∧ (scanN rs.length (NextData (fillAll initPag rs)).2).2.pageCount = rs.length
    ∧ ∀ k, (Scan false true
          (scanIterState k (scanN rs.length (NextData (fillAll initPag rs)).2).2)).1
        = Except.error ScanError.errPaginatorIsClosed := by
  rw [flush_state rs h, scanN_from_flushed rs h]
  refine ⟨rfl, rfl, rfl, ?_⟩
  intro k
  exact (scan_closed_step _ true (scanIter_closed k _ rfl)).1

/-- C9 witness: the FIFO theorem applied to the two buffered rows `[10, 20]`. -/
theorem c9_scan_fifo_witness :
    ([10, 20] ≠ ([] : List Nat))
    ∧ ((scanN 2 (NextData (fillAll initPag [10, 20])).2).1 = [10, 20]
      ∧ (scanN 2 (NextData (fillAll initPag [10, 20])).2).2.closed = true
      ∧ (scanN 2 (NextData (fillAll initPag [10, 20])).2).2.pageCount = 2
      ∧ ∀ k, (Scan false true
            (scanIterState k (scanN 2 (NextData (fillAll initPag [10, 20])).2).2)).1
          = Except.error ScanError.errPaginatorIsClosed) :=
  ⟨by decide, c9_scan_fifo [10, 20] (by decide)⟩

/-- C9 counterexample: after the paginator is closed, a `Scan` call with a nil
destination fails with the nil-destination error, not with
`ErrPaginatorIsClosed` — the nil check runs before the closed check. -/
theorem c9_counterexample :
    (Scan true true ((scanN 1 (NextData (fillAll initPag [0])).2).2 : PagState Nat)).1
      = Except.error ScanError.errNilDest
    ∧ ((scanN 1 (NextData (fillAll initPag [0])).2).2 : PagState Nat).closed = true
    ∧ ScanError.errNilDest ≠ ScanError.errPaginatorIsClosed := by
  refine ⟨rfl, rfl, by decide⟩

/-- C10: for every column list and parameter list (SQL column names and the
fixed operator signs contain no `%`), `createWhereClause` emits the fragments
and argument values in the columns' declaration order — the order of the
`cols` slice, not the order the parameters appeared — and every fragment
carries exactly as many `$%v` placeholders as argument values, so the k-th
argument of the finished clause always belongs to its k-th placeholder. -/
theorem c10_where_clause_order (cols : List (List Char)) (params : List Parameter)
    (hcols : ∀ c ∈ cols, '%' ∉ c) (hsigns : ∀ p ∈ params, '%' ∉ p.sign) :
    (createWhereClause cols params).args = (colOrderedParams cols params).flatMap argsFor
    ∧ (createWhereClause cols params).clause
        = chars (" WHERE ")
            ++ goJoin (if (colOrderedParams cols params).length = 1 then []
                        else chars (" AND "))
                ((colOrderedParams cols params).map fragFor)
    ∧ ∀ p ∈ colOrderedParams cols params, countVs (fragFor p) = (argsFor p).length := by
  refine ⟨?_, ?_, ?_⟩
  · rw [createWhereClause_spec]
  · rw [createWhereClause_spec]
  · intro p hp
    have hname : '%' ∉ p.name := by
      rcases List.mem_flatMap.1 hp with ⟨n, hn, hpn⟩
      have := List.of_mem_filter hpn
      simp only [decide_eq_true_eq] at this
      exact this ▸ hcols n hn
    have hsign : '%' ∉ p.sign := by
      rcases List.mem_flatMap.1 hp with ⟨n, _, hpn⟩
      exact hsigns p (List.mem_of_mem_filter hpn)
    exact countVs_fragFor p hname hsign

/-- C10 witness: the ordering theorem applied to the columns `[age, name]`
and parameters arriving in the opposite order. -/
theorem c10_where_clause_order_witness :
    (∀ c ∈ [chars ("age"), chars ("name")], '%' ∉ c)
    ∧ ((createWhereClause [chars ("age"), chars ("name")]
          [⟨chars ("name"), eq, chars ("x")⟩, ⟨chars ("age"), gt, chars ("3")⟩]).args
        = (colOrderedParams [chars ("age"), chars ("name")]
            [⟨chars ("name"), eq, chars ("x")⟩, ⟨chars ("age"), gt, chars ("3")⟩]).flatMap argsFor) :=
  ⟨by decide,
   (c10_where_clause_order [chars ("age"), chars ("name")]
     [⟨chars ("name"), eq, chars ("x")⟩, ⟨chars ("age"), gt, chars ("3")⟩]
     (by decide) (by decide)).1⟩

/-- C7 counterexample: in the sort-parameter path, the sort value
`+name,+name` over columns `[id, name]` with id `id` produces the ORDER BY
terms `[name ASC, name ASC, id]` — the duplicate entry naming `name` is kept,
not removed. -/
theorem c7_counterexample :
    createOrderByClause [⟨chars ("sort"), eq, chars ("+name,+name")⟩]
        [chars ("id"), chars ("name")] (chars ("id")) =
      some (chars (" ORDER BY name ASC,name ASC,id"))
    ∧ orderByTerms [⟨chars ("sort"), eq, chars ("+name,+name")⟩]
        [chars ("id"), chars ("name")] (chars ("id")) =
      some [chars ("name ASC"), chars ("name ASC"), chars ("id")]
    ∧ ¬ List.Nodup [chars ("name ASC"), chars ("name ASC"), chars ("id")] := by
  decide

/-- C8 counterexample: without a `col` override, the field identifier `ID` is
split letter by letter, deriving the column name `i_d`, not the collapsed
token `id`. -/
theorem c8_counterexample :
    getColName [[]] (chars ("ID")) = chars ("i_d")
    ∧ chars ("i_d") ≠ chars ("id") := by
  decide

/-- C8 amended: the derived column name is the explicit `col` override when
present, else the field identifier converted to lowercase snake_case by
splitting before every uppercase letter — `MyAwesomeField` becomes
`my_awesome_field`, and the all-uppercase identifier `ID` becomes `i_d`
(letter-by-letter), which is why the repository's tests tag such fields with
`col=id`. -/
theorem c8_column_names :
    getColName [[]] (chars ("MyAwesomeField")) = chars ("my_awesome_field")
    ∧ getColName [[]] (chars ("ID")) = chars ("i_d")
    ∧ getColName [chars ("id"), chars ("col=id")] (chars ("ID")) = chars ("id")
    ∧ parseCamelCaseToSnakeLowerCase (chars ("LastName")) = chars ("last_name") := by
  decide

end Paginate
